import Mathlib

/-!
Verification of the recipe-catalog / meal-logging application (`app.py`).

Strings of the Python source are modelled as `List Char`; a Python value
that may be `None` is modelled as an `Option`.  The helpers below embed the
string manipulation of `app.py` (lines 107-140) and the store operations
embed the sqlite-backed functions (lines 10-104), with the state of the
database made explicit.
-/

namespace ReceptenApp

/-- The character classes removed by Python's `str.strip()` (ASCII range:
space, tab, newline, carriage return, vertical tab, form feed).  The claims
only exercise ASCII text, so the Unicode spaces Python would also strip are
not modelled. -/
def isPySpace (c : Char) : Bool :=
  c.toNat = 32 || c.toNat = 9 || c.toNat = 10 || c.toNat = 13 ||
  c.toNat = 11 || c.toNat = 12

/-- Python `s.strip()`: drop leading whitespace, then trailing whitespace. -/
def pyStrip (l : List Char) : List Char :=
  ((l.dropWhile isPySpace).reverse.dropWhile isPySpace).reverse

/-- ASCII lower-casing of one character.  This is Python `str.lower()` and
SQLite's `NOCASE` collation restricted to the ASCII range, which is all the
claims exercise. -/
def asciiLower (c : Char) : Char :=
  if 65 ≤ c.toNat ∧ c.toNat ≤ 90 then Char.ofNat (c.toNat + 32) else c

/-- Python `s.lower()` (ASCII range). -/
def pyLower (l : List Char) : List Char := l.map asciiLower

/-- Byte-wise lexicographic comparison of two character lists, the order
SQLite's BINARY collation gives `ORDER BY` on TEXT columns. -/
def lexLe : List Char → List Char → Bool
  | [], _ => true
  | _ :: _, [] => false
  | a :: as, b :: bs =>
    if a.toNat < b.toNat then true
    else if b.toNat < a.toNat then false
    else lexLe as bs

/-- Python `s.split(",")`: cut at every comma; `"".split(",") = [""]`. -/
def splitComma : List Char → List (List Char)
  | [] => [[]]
  | c :: cs =>
    if c = ',' then [] :: splitComma cs
    else
      match splitComma cs with
      | [] => [[c]]
      | p :: ps => (c :: p) :: ps

/-- Python `", ".join(items)` (app.py lines 177 and 272). -/
def joinCsv : List (List Char) → List Char
  | [] => []
  | [s] => s
  | s :: rest => s ++ ',' :: ' ' :: joinCsv rest

/-- The body of the comprehension in `_split_csv`: keep `n.strip()` when it
is non-empty (truthy), drop the piece otherwise. -/
def keepPiece (n : List Char) : Option (List Char) :=
  if pyStrip n = [] then none else some (pyStrip n)

/-- `_split_csv` (app.py line 114-115):
`[n.strip() for n in (csv_text or "").split(",") if n.strip()]`.
The argument is an `Option` because the Python parameter may be `None`;
`(csv_text or "")` is `Option.getD` here since `or` maps both `None` and
`""` to `""`. -/
def _split_csv (csv_text : Option (List Char)) : List (List Char) :=
  (splitComma (csv_text.getD [])).filterMap keepPiece

/-- The loop of `_dedupe_keep_order` (app.py lines 117-126), with the
`seen` set of lowercased keys made an explicit accumulator. -/
def dedupeLoop (seen : List (List Char)) : List (List Char) → List (List Char)
  | [] => []
  | x :: xs =>
    if pyLower (pyStrip x) ≠ [] ∧ pyLower (pyStrip x) ∉ seen then
      pyStrip x :: dedupeLoop (pyLower (pyStrip x) :: seen) xs
    else dedupeLoop seen xs

/-- `_dedupe_keep_order` (app.py lines 117-126). -/
def _dedupe_keep_order (items : List (List Char)) : List (List Char) :=
  dedupeLoop [] items

/-- Modelled from the spec's words, for comparison with
`_dedupe_keep_order`: walk the items in order, skip the ones whose
lowercased trimmed key is empty, keep the first occurrence of each
distinct key (with its first-seen trimmed casing) and remove every later
item carrying the same case-insensitive key. -/
def dedupeSpec (items : List (List Char)) : List (List Char) :=
  match items with
  | [] => []
  | x :: xs =>
    if pyLower (pyStrip x) = [] then dedupeSpec xs
    else
      pyStrip x ::
        dedupeSpec (xs.filter fun y =>
          decide (pyLower (pyStrip y) ≠ pyLower (pyStrip x)))
termination_by items.length
decreasing_by
  all_goals simp_wf
  all_goals exact Nat.lt_succ_of_le (List.length_filter_le _ _)

/-- One row of the `recipes` table (app.py lines 13-22). -/
structure RecipeRow where
  id : Nat
  name : List Char
  ingredients : List Char
  instructions : List Char
  tags : List Char
  liked_by : List Char
deriving DecidableEq

/-- One row of the `meals` table (app.py lines 23-31).  The DDL declares
`FOREIGN KEY(recipe_id) REFERENCES recipes(id) ON DELETE CASCADE`, but the
application opens every sqlite3 connection without issuing
`PRAGMA foreign_keys = ON`, and Python's sqlite3 leaves foreign-key
enforcement OFF by default; the constraint is therefore inert at runtime
and the operations below model that actual behaviour. -/
structure MealRow where
  id : Nat
  recipe_id : Nat
  ate_on : List Char
  notes : List Char
deriving DecidableEq

/-- The state of the database file: both tables in rowid order, plus the
next AUTOINCREMENT value of each. -/
structure DB where
  recipes : List RecipeRow
  meals : List MealRow
  next_recipe_id : Nat
  next_meal_id : Nat
deriving DecidableEq

/-- `init_db` (app.py lines 10-33): a freshly initialised database file
with both tables empty. -/
def init_db : DB := ⟨[], [], 1, 1⟩

/-- `add_recipe` (app.py lines 35-43). -/
def add_recipe (name ingredients instructions tags liked_by : List Char)
    (st : DB) : DB :=
  { st with
    recipes := st.recipes ++
      [⟨st.next_recipe_id, name, ingredients, instructions, tags, liked_by⟩],
    next_recipe_id := st.next_recipe_id + 1 }

/-- `delete_recipe` (app.py lines 75-80): `DELETE FROM recipes WHERE id = ?`.
Because foreign-key enforcement is off on every connection (see `MealRow`),
the `ON DELETE CASCADE` clause does not fire and the meals table is left
untouched. -/
def delete_recipe (recipe_id : Nat) (st : DB) : DB :=
  { st with recipes := st.recipes.filter fun r => r.id != recipe_id }

/-- `log_meal` (app.py lines 82-88): `INSERT INTO meals ...`.  With
foreign-key enforcement off, the insert succeeds for every `recipe_id`,
whether or not a matching recipe row exists. -/
def log_meal (recipe_id : Nat) (ate_on notes : List Char) (st : DB) : DB :=
  { st with
    meals := st.meals ++ [⟨st.next_meal_id, recipe_id, ate_on, notes⟩],
    next_meal_id := st.next_meal_id + 1 }

/-- The rows `SELECT ... FROM meals WHERE recipe_id = ?` returns, used by
both queries of `get_meal_stats`. -/
def meals_for (recipe_id : Nat) (st : DB) : List MealRow :=
  st.meals.filter fun m => m.recipe_id == recipe_id

/-- Descending `ORDER BY ate_on` comparison between meal rows (BINARY
collation on TEXT is byte-wise lexicographic). -/
def ateDesc (m₁ m₂ : MealRow) : Prop := lexLe m₂.ate_on m₁.ate_on = true

instance : DecidableRel ateDesc := fun m₁ m₂ =>
  inferInstanceAs (Decidable (lexLe m₂.ate_on m₁.ate_on = true))

/-- `get_meal_stats` (app.py lines 90-98): `COUNT(*)` of the matching meal
rows, and the first `ate_on` of `ORDER BY ate_on DESC LIMIT 1`, with the
sentinel `"—"` when `fetchone()` returns no row. -/
def get_meal_stats (recipe_id : Nat) (st : DB) : Nat × List Char :=
  let ms := meals_for recipe_id st
  let total := ms.length
  let last_date :=
    match List.insertionSort ateDesc ms with
    | [] => "—".data
    | m :: _ => m.ate_on
  (total, last_date)

/-- `ORDER BY name COLLATE NOCASE ASC` comparison between recipe rows. -/
def nocaseLe (r₁ r₂ : RecipeRow) : Prop :=
  lexLe (pyLower r₁.name) (pyLower r₂.name) = true

instance : DecidableRel nocaseLe := fun r₁ r₂ =>
  inferInstanceAs (Decidable (lexLe (pyLower r₁.name) (pyLower r₂.name) = true))

/-- SQL `column LIKE '%pat%'` for a pattern without `%`/`_` metacharacters:
case-insensitive (ASCII) substring containment.  Only called with non-empty
patterns, and with the empty pattern by no claim. -/
def leadsWith : List Char → List Char → Bool
  | [], _ => true
  | _ :: _, [] => false
  | p :: ps, c :: cs => p == c && leadsWith ps cs

/-- Whether `pat` occurs contiguously inside `s`. -/
def containsSeq (pat : List Char) : List Char → Bool
  | [] => leadsWith pat []
  | c :: cs => leadsWith pat (c :: cs) || containsSeq pat cs

/-- `column LIKE ?` with parameter `f"%{q}%"` (app.py lines 62-67). -/
def likeMatch (pat s : List Char) : Bool :=
  containsSeq (pyLower pat) (pyLower s)

/-- `get_recipes` (app.py lines 56-73): the WHERE clause is added only for
non-empty (truthy) filter strings, both conditions combine with AND, and
the result is ordered by name, NOCASE, ascending. -/
def get_recipes (query liked_filter : List Char) (st : DB) : List RecipeRow :=
  let keep := fun (r : RecipeRow) =>
    (query.isEmpty || (likeMatch query r.name || likeMatch query r.ingredients ||
        likeMatch query r.instructions || likeMatch query r.tags))
    && (liked_filter.isEmpty || likeMatch liked_filter r.liked_by)
  List.insertionSort nocaseLe (st.recipes.filter keep)

/-- The SQL text `export_table` (app.py lines 100-104) builds and executes:
the f-string `f"SELECT * FROM {table_name}"`.  The function interpolates
the argument unconditionally; no branch inspects `table_name` first. -/
def export_table_sql (table_name : List Char) : List Char :=
  "SELECT * FROM ".data ++ table_name

/-- Modelled from the spec: the fixed allow-list of known tables the spec
requires export requests to be checked against (`recipes` and `meals`).
No such list exists in the source. -/
def allowed_export_tables : List (List Char) := ["recipes".data, "meals".data]

/-- Outcome shown to the user by the sidebar save handler. -/
inductive SaveResult where
  | saved
  | naam_verplicht
deriving DecidableEq

/-- The `Opslaan` button handler (app.py lines 174-193): if the trimmed
name is non-empty, merge the selected and newly typed likers, join them
with `", "` and insert the recipe; otherwise warn `"Naam is verplicht."`
and touch nothing. -/
def opslaan_click (r_name r_ingredients r_instructions r_tags : List Char)
    (selected_names : List (List Char)) (new_likers_csv : List Char)
    (st : DB) : DB × SaveResult :=
  if pyStrip r_name ≠ [] then
    let combined_likers :=
      _dedupe_keep_order (selected_names ++ _split_csv (some new_likers_csv))
    let liked_by_value := joinCsv combined_likers
    (add_recipe (pyStrip r_name) (pyStrip r_ingredients)
      (pyStrip r_instructions) (pyStrip r_tags) liked_by_value st,
     SaveResult.saved)
  else (st, SaveResult.naam_verplicht)

/-- A database holding the three recipes of the ordering example. -/
def demo_db : DB :=
  add_recipe ("cherry".data) [] [] [] []
    (add_recipe ("Apple".data) [] [] [] []
      (add_recipe ("banana".data) [] [] [] [] init_db))

/-- A database holding one recipe (id 1) with two logged meals. -/
def demo_meals_db : DB :=
  log_meal 1 ("2024-03-05".data) []
    (log_meal 1 ("2024-01-01".data) []
      (add_recipe ("Pasta".data) [] [] [] [] init_db))

theorem lexLe_cons_iff {a b : Char} {as bs : List Char} :
    lexLe (a :: as) (b :: bs) = true ↔
      a.toNat < b.toNat ∨ (a.toNat = b.toNat ∧ lexLe as bs = true) := by
  by_cases h1 : a.toNat < b.toNat
  · simp [lexLe, h1]
  · by_cases h2 : b.toNat < a.toNat
    · simp [lexLe, h1, h2]
      omega
    · have he : a.toNat = b.toNat := by omega
      simp [lexLe, h1, h2, he]

theorem lexLe_refl (l : List Char) : lexLe l l = true := by
  induction l with
  | nil => rfl
  | cons c cs ih => exact lexLe_cons_iff.mpr (Or.inr ⟨rfl, ih⟩)

theorem lexLe_total (a b : List Char) : lexLe a b = true ∨ lexLe b a = true := by
  induction a generalizing b with
  | nil => exact Or.inl rfl
  | cons c cs ih =>
    cases b with
    | nil => exact Or.inr rfl
    | cons d ds =>
      rcases Nat.lt_trichotomy c.toNat d.toNat with h | h | h
      · exact Or.inl (lexLe_cons_iff.mpr (Or.inl h))
      · rcases ih ds with h' | h'
        · exact Or.inl (lexLe_cons_iff.mpr (Or.inr ⟨h, h'⟩))
        · exact Or.inr (lexLe_cons_iff.mpr (Or.inr ⟨h.symm, h'⟩))
      · exact Or.inr (lexLe_cons_iff.mpr (Or.inl h))

theorem lexLe_trans {a b c : List Char} (hab : lexLe a b = true)
    (hbc : lexLe b c = true) : lexLe a c = true := by
  induction a generalizing b c with
  | nil => rfl
  | cons x xs ih =>
    cases b with
    | nil => simp [lexLe] at hab
    | cons y ys =>
      cases c with
      | nil => simp [lexLe] at hbc
      | cons z zs =>
        rcases lexLe_cons_iff.mp hab with h1 | ⟨h1, h1'⟩ <;>
          rcases lexLe_cons_iff.mp hbc with h2 | ⟨h2, h2'⟩
        · exact lexLe_cons_iff.mpr (Or.inl (Nat.lt_trans h1 h2))
        · exact lexLe_cons_iff.mpr (Or.inl (h2 ▸ h1))
        · exact lexLe_cons_iff.mpr (Or.inl (h1 ▸ h2))
        · exact lexLe_cons_iff.mpr (Or.inr ⟨h1.trans h2, ih h1' h2'⟩)

theorem dropWhile_idem {α : Type} (p : α → Bool) (l : List α) :
    (l.dropWhile p).dropWhile p = l.dropWhile p := by
  induction l with
  | nil => rfl
  | cons c cs ih => cases hp : p c <;> simp [List.dropWhile_cons, hp, ih]

theorem head_dropWhile {α : Type} {p : α → Bool} (l : List α) {c : α}
    {cs : List α} (h : l.dropWhile p = c :: cs) : p c = false := by
  induction l with
  | nil => simp at h
  | cons a as ih =>
    cases hp : p a
    · rw [List.dropWhile_cons, hp] at h
      simp at h
      exact h.1 ▸ hp
    · rw [List.dropWhile_cons, hp] at h
      exact ih h

theorem pyStrip_sublist (l : List Char) : List.Sublist (pyStrip l) l := by
  have h2 : List.Sublist ((l.dropWhile isPySpace).reverse.dropWhile isPySpace)
      (l.dropWhile isPySpace).reverse := List.dropWhile_sublist _
  have h3 := h2.reverse
  rw [List.reverse_reverse] at h3
  exact h3.trans (List.dropWhile_sublist _)

theorem pyStrip_idem (l : List Char) : pyStrip (pyStrip l) = pyStrip l := by
  cases hB : pyStrip l with
  | nil => simp [pyStrip]
  | cons b bs =>
    rw [← hB]
    have hsuf : List.IsSuffix
        ((l.dropWhile isPySpace).reverse.dropWhile isPySpace)
        (l.dropWhile isPySpace).reverse := List.dropWhile_suffix isPySpace
    obtain ⟨t, ht⟩ := hsuf
    have hA : pyStrip l ++ t.reverse = l.dropWhile isPySpace := by
      have h2 := congrArg List.reverse ht
      simpa [pyStrip, List.reverse_append] using h2
    have hld : l.dropWhile isPySpace = b :: (bs ++ List.reverse t) := by
      rw [← hA, hB]
      rfl
    have hpb : isPySpace b = false := head_dropWhile l hld
    have h1 : (pyStrip l).dropWhile isPySpace = pyStrip l := by
      rw [hB]
      simp [List.dropWhile_cons, hpb]
    have h2 : (pyStrip l).reverse.dropWhile isPySpace = (pyStrip l).reverse := by
      have hrev : (pyStrip l).reverse
          = (l.dropWhile isPySpace).reverse.dropWhile isPySpace := by
        simp [pyStrip]
      rw [hrev]
      exact dropWhile_idem _ _
    show (((pyStrip l).dropWhile isPySpace).reverse.dropWhile isPySpace).reverse
        = pyStrip l
    rw [h1, h2, List.reverse_reverse]

theorem pyStrip_space_cons {c : Char} (h : isPySpace c = true) (l : List Char) :
    pyStrip (c :: l) = pyStrip l := by
  simp [pyStrip, List.dropWhile_cons, h]

theorem pyStrip_eq_nil {l : List Char} (h : ∀ c ∈ l, isPySpace c = true) :
    pyStrip l = [] := by
  have h1 : l.dropWhile isPySpace = [] := List.dropWhile_eq_nil_iff.mpr h
  simp [pyStrip, h1]

theorem splitComma_ne_nil (l : List Char) : splitComma l ≠ [] := by
  cases l with
  | nil => simp [splitComma]
  | cons c cs =>
    simp only [splitComma]
    split
    · simp
    · split <;> simp

theorem not_comma_of_mem_splitComma :
    ∀ {l q : List Char}, q ∈ splitComma l → ',' ∉ q := by
  intro l
  induction l with
  | nil =>
    intro q hq
    simp [splitComma] at hq
    subst hq
    simp
  | cons c cs ih =>
    intro q hq
    by_cases hc : c = ','
    · subst hc
      simp [splitComma] at hq
      rcases hq with rfl | hq
      · simp
      · exact ih hq
    · cases hs : splitComma cs with
      | nil => exact absurd hs (splitComma_ne_nil cs)
      | cons p ps =>
        simp only [splitComma, if_neg hc, hs] at hq
        rcases List.mem_cons.mp hq with rfl | hq'
        · intro hmem
          rcases List.mem_cons.mp hmem with h | h
          · exact hc h.symm
          · exact ih (hs ▸ List.mem_cons_self p ps) h
        · exact ih (hs ▸ List.mem_cons_of_mem _ hq')

theorem mem_of_mem_splitComma :
    ∀ {l q : List Char}, q ∈ splitComma l → ∀ {c : Char}, c ∈ q → c ∈ l := by
  intro l
  induction l with
  | nil =>
    intro q hq c hc
    simp [splitComma] at hq
    subst hq
    simp at hc
  | cons d ds ih =>
    intro q hq c hc
    by_cases hd : d = ','
    · subst hd
      simp [splitComma] at hq
      rcases hq with rfl | hq
      · simp at hc
      · exact List.mem_cons_of_mem _ (ih hq hc)
    · cases hs : splitComma ds with
      | nil => exact absurd hs (splitComma_ne_nil ds)
      | cons p ps =>
        simp only [splitComma, if_neg hd, hs] at hq
        rcases List.mem_cons.mp hq with rfl | hq'
        · rcases List.mem_cons.mp hc with rfl | hc'
          · exact List.mem_cons_self _ _
          · exact List.mem_cons_of_mem _
              (ih (hs ▸ List.mem_cons_self p ps) hc')
        · exact List.mem_cons_of_mem _
            (ih (hs ▸ List.mem_cons_of_mem _ hq') hc)

theorem splitComma_eq_single {s : List Char} (h : ',' ∉ s) :
    splitComma s = [s] := by
  induction s with
  | nil => rfl
  | cons c cs ih =>
    have hc : c ≠ ',' := by
      intro hcc
      exact h (by rw [hcc]; exact List.mem_cons_self _ _)
    have hcs : ',' ∉ cs := fun h' => h (List.mem_cons_of_mem _ h')
    simp [splitComma, hc, ih hcs]

theorem splitComma_append {a b : List Char} (h : ',' ∉ a) :
    splitComma (a ++ ',' :: b) = a :: splitComma b := by
  induction a with
  | nil => simp [splitComma]
  | cons c a' ih =>
    have hc : c ≠ ',' := by
      intro hcc
      exact h (by rw [hcc]; exact List.mem_cons_self _ _)
    have ha' : ',' ∉ a' := fun h' => h (List.mem_cons_of_mem _ h')
    simp [splitComma, hc, ih ha']

theorem mem_split_csv {o : Option (List Char)} {y : List Char}
    (hy : y ∈ _split_csv o) : pyStrip y = y ∧ y ≠ [] ∧ ',' ∉ y := by
  simp only [_split_csv, List.mem_filterMap] at hy
  obtain ⟨n, hn, hfn⟩ := hy
  by_cases h : pyStrip n = []
  · simp [keepPiece, h] at hfn
  · simp only [keepPiece, h, if_false, Option.some.injEq] at hfn
    subst hfn
    refine ⟨pyStrip_idem n, h, ?_⟩
    intro hmem
    exact not_comma_of_mem_splitComma hn ((pyStrip_sublist n).subset hmem)

theorem mem_dedupeLoop :
    ∀ {xs seen s}, s ∈ dedupeLoop seen xs → ∃ y ∈ xs, s = pyStrip y := by
  intro xs
  induction xs with
  | nil => intro seen s h; simp [dedupeLoop] at h
  | cons x xs ih =>
    intro seen s h
    by_cases hc : pyLower (pyStrip x) ≠ [] ∧ pyLower (pyStrip x) ∉ seen
    · rw [dedupeLoop, if_pos hc] at h
      rcases List.mem_cons.mp h with rfl | h'
      · exact ⟨x, List.mem_cons_self _ _, rfl⟩
      · obtain ⟨y, hy, rfl⟩ := ih h'
        exact ⟨y, List.mem_cons_of_mem _ hy, rfl⟩
    · rw [dedupeLoop, if_neg hc] at h
      obtain ⟨y, hy, rfl⟩ := ih h
      exact ⟨y, List.mem_cons_of_mem _ hy, rfl⟩

theorem dedupeLoop_eq_spec :
    ∀ (xs seen : List (List Char)),
      dedupeLoop seen xs
        = dedupeSpec (xs.filter fun y => decide (pyLower (pyStrip y) ∉ seen)) := by
  intro xs
  induction xs with
  | nil => intro seen; simp [dedupeLoop, dedupeSpec]
  | cons x xs ih =>
    intro seen
    by_cases hmem : pyLower (pyStrip x) ∈ seen
    · have hcond : ¬(pyLower (pyStrip x) ≠ [] ∧ pyLower (pyStrip x) ∉ seen) := by
        tauto
      rw [dedupeLoop, if_neg hcond, List.filter_cons]
      simp only [hmem, not_true_eq_false, decide_False, if_false]
      exact ih seen
    · have hfil :
          (x :: xs).filter (fun y => decide (pyLower (pyStrip y) ∉ seen))
            = x :: xs.filter (fun y => decide (pyLower (pyStrip y) ∉ seen)) := by
        simp [List.filter_cons, hmem]
      by_cases hk : pyLower (pyStrip x) = []
      · have hcond : ¬(pyLower (pyStrip x) ≠ [] ∧ pyLower (pyStrip x) ∉ seen) := by
          tauto
        rw [dedupeLoop, if_neg hcond, hfil, dedupeSpec, if_pos hk]
        exact ih seen
      · have hcond : pyLower (pyStrip x) ≠ [] ∧ pyLower (pyStrip x) ∉ seen :=
          ⟨hk, hmem⟩
        rw [dedupeLoop, if_pos hcond, hfil, dedupeSpec, if_neg hk, ih]
        congr 1
        rw [List.filter_filter]
        congr 1
        apply List.filter_congr
        intro y _
        simp [List.mem_cons, not_or, Bool.and_comm]

theorem keepPiece_space_cons (p : List Char) :
    keepPiece (' ' :: p) = keepPiece p := by
  rw [keepPiece, keepPiece, pyStrip_space_cons (by decide) p]

theorem keepPiece_of_stripped {s : List Char} (hstr : pyStrip s = s)
    (hne : s ≠ []) : keepPiece s = some s := by
  rw [keepPiece, hstr, if_neg hne]

theorem split_join (l : List (List Char))
    (h : ∀ s ∈ l, s ≠ [] ∧ pyStrip s = s ∧ ',' ∉ s) :
    _split_csv (some (joinCsv l)) = l := by
  induction l with
  | nil => decide
  | cons s rest ih =>
    obtain ⟨hs_ne, hs_str, hs_nc⟩ := h s (List.mem_cons_self _ _)
    cases rest with
    | nil =>
      show _split_csv (some (joinCsv [s])) = [s]
      simp only [_split_csv, Option.getD_some, joinCsv]
      rw [splitComma_eq_single hs_nc,
        List.filterMap_cons_some (keepPiece_of_stripped hs_str hs_ne)]
      rfl
    | cons s' rest' =>
      have ihr := ih fun t ht => h t (List.mem_cons_of_mem _ ht)
      have ihr' : List.filterMap keepPiece (splitComma (joinCsv (s' :: rest')))
          = s' :: rest' := by
        simpa [_split_csv] using ihr
      cases hsp : splitComma (joinCsv (s' :: rest')) with
      | nil => exact absurd hsp (splitComma_ne_nil _)
      | cons p ps =>
        have hsp2 : splitComma (' ' :: joinCsv (s' :: rest'))
            = (' ' :: p) :: ps := by
          simp [splitComma, hsp]
        have hjoin : joinCsv (s :: s' :: rest')
            = s ++ ',' :: ' ' :: joinCsv (s' :: rest') := rfl
        simp only [_split_csv, Option.getD_some, hjoin]
        rw [splitComma_append hs_nc, hsp2,
          List.filterMap_cons_some (keepPiece_of_stripped hs_str hs_ne)]
        have htail : List.filterMap keepPiece ((' ' :: p) :: ps)
            = s' :: rest' := by
          rw [List.filterMap_cons, keepPiece_space_cons, ← List.filterMap_cons,
            ← hsp, ihr']
        rw [htail]

instance : IsTotal RecipeRow nocaseLe :=
  ⟨fun a b => lexLe_total (pyLower a.name) (pyLower b.name)⟩

instance : IsTrans RecipeRow nocaseLe :=
  ⟨fun _ _ _ hab hbc => lexLe_trans hab hbc⟩

instance : IsTotal MealRow ateDesc :=
  ⟨fun a b => lexLe_total b.ate_on a.ate_on⟩

instance : IsTrans MealRow ateDesc :=
  ⟨fun _ _ _ hab hbc => lexLe_trans hbc hab⟩

theorem filterMap_keepPiece (l : List (List Char)) :
    l.filterMap keepPiece = (l.map pyStrip).filter fun y => decide (y ≠ []) := by
  induction l with
  | nil => rfl
  | cons a l ih =>
    by_cases h : pyStrip a = []
    · rw [List.filterMap_cons_none (by simp [keepPiece, h]), ih,
        List.map_cons, List.filter_cons]
      simp [h]
    · have hk : keepPiece a = some (pyStrip a) := by rw [keepPiece, if_neg h]
      rw [List.filterMap_cons_some hk, ih, List.map_cons, List.filter_cons]
      simp [h]

/-- C1: the claim says `deleteRecipe` cascades and `getMealStats` on the
deleted id afterwards reports count 0.  The code declares
`ON DELETE CASCADE` in its own DDL, but never enables foreign-key
enforcement on any connection, so the delete leaves both meal rows in
place and `getMealStats` still reports count 2. -/
theorem delete_recipe_leaves_meals :
    (delete_recipe 1 demo_meals_db).recipes = []
    ∧ (delete_recipe 1 demo_meals_db).meals.length = 2
    ∧ get_meal_stats 1 (delete_recipe 1 demo_meals_db)
        = (2, "2024-03-05".data) := by decide

/-- C2: the claim says logging a meal against a non-existent recipe id
fails at the store boundary and inserts nothing.  With foreign-key
enforcement off (the code never issues the pragma its own DDL needs),
`log_meal 999` on a database with no recipe 999 silently inserts an
orphan meal row, observable through `get_meal_stats`. -/
theorem log_meal_inserts_orphan :
    (init_db.recipes.any fun r => r.id == 999) = false
    ∧ (log_meal 999 ("2024-05-01".data) [] init_db).meals
        = [⟨1, 999, "2024-05-01".data, []⟩]
    ∧ get_meal_stats 999 (log_meal 999 ("2024-05-01".data) [] init_db)
        = (1, "2024-05-01".data) := by decide

/-- C3: `_dedupe_keep_order` returns the items in first-seen order with
duplicates removed under the case-insensitive key (lowercased trimmed
form), keeping the first occurrence's casing and skipping empty items
(`dedupeSpec` is that specification); in particular on
`["Ana", "ana", "Bob"]` it returns `["Ana", "Bob"]`. -/
theorem dedupe_keep_order_correct :
    (∀ items : List (List Char), _dedupe_keep_order items = dedupeSpec items)
    ∧ _dedupe_keep_order ["Ana".data, "ana".data, "Bob".data]
        = ["Ana".data, "Bob".data] := by
  constructor
  · intro items
    rw [_dedupe_keep_order, dedupeLoop_eq_spec]
    congr 1
    conv_rhs => rw [← List.filter_true items]
    apply List.filter_congr
    intro y _
    simp
  · decide

/-- C4: `_split_csv` splits on commas, trims each piece, drops empty
pieces, preserves order and does not deduplicate (it is the trimmed split
with only the empty pieces filtered out); in particular on `"a, b ,,c"`
it returns `["a", "b", "c"]`. -/
theorem split_csv_correct :
    (∀ s : List Char,
        _split_csv (some s)
          = ((splitComma s).map pyStrip).filter fun y => decide (y ≠ []))
    ∧ _split_csv (some ("a, b ,,c".data)) = ["a".data, "b".data, "c".data] := by
  constructor
  · intro s
    rw [_split_csv, Option.getD_some, filterMap_keepPiece]
  · decide

/-- C5: for every input string `x`, storing
`joinCsv (_dedupe_keep_order (_split_csv x))` and reading it back through
`_split_csv` returns exactly the deduplicated list. -/
theorem split_csv_join_roundtrip (x : List Char) :
    _split_csv (some (joinCsv (_dedupe_keep_order (_split_csv (some x)))))
      = _dedupe_keep_order (_split_csv (some x)) := by
  apply split_join
  intro s hs
  rw [_dedupe_keep_order] at hs
  obtain ⟨y, hy, rfl⟩ := mem_dedupeLoop hs
  obtain ⟨hstr, hne, hnc⟩ := mem_split_csv hy
  rw [hstr]
  exact ⟨hne, hstr, hnc⟩

/-- C6: with both filters empty, `get_recipes` returns every recipe of the
store, ordered by name case-insensitively ascending; on recipes named
"banana", "Apple", "cherry" the order is Apple, banana, cherry. -/
theorem get_recipes_empty_filters :
    (∀ st : DB,
        List.Perm (get_recipes [] [] st) st.recipes
        ∧ List.Sorted nocaseLe (get_recipes [] [] st))
    ∧ (get_recipes [] [] demo_db).map RecipeRow.name
        = ["Apple".data, "banana".data, "cherry".data] := by
  constructor
  · intro st
    simp only [get_recipes, List.isEmpty_nil, Bool.true_or, Bool.and_self,
      List.filter_true]
    exact ⟨List.perm_insertionSort _ _, List.sorted_insertionSort _ _⟩
  · decide

/-- C7: `get_meal_stats r` returns the number of meal rows referencing `r`
together with the lexicographically maximal `ate_on` among them, and the
sentinel `"—"` as the date when no meal references `r`; after logging
"2024-01-01" and "2024-03-05" it returns `(2, "2024-03-05")`. -/
theorem get_meal_stats_correct :
    (∀ (st : DB) (rid : Nat),
        (get_meal_stats rid st).1 = (meals_for rid st).length
        ∧ (meals_for rid st = [] → (get_meal_stats rid st).2 = "—".data)
        ∧ (meals_for rid st ≠ [] →
            (get_meal_stats rid st).2 ∈ (meals_for rid st).map MealRow.ate_on)
        ∧ ∀ m ∈ meals_for rid st,
            lexLe m.ate_on (get_meal_stats rid st).2 = true)
    ∧ get_meal_stats 1 demo_meals_db = (2, "2024-03-05".data) := by
  constructor
  · intro st rid
    refine ⟨rfl, ?_, ?_, ?_⟩
    · intro h
      simp [get_meal_stats, h]
    · intro h
      cases hL : List.insertionSort ateDesc (meals_for rid st) with
      | nil =>
        exfalso
        apply h
        have hp := List.perm_insertionSort ateDesc (meals_for rid st)
        rw [hL] at hp
        exact (hp.symm).eq_nil
      | cons m rest =>
        have h2 : (get_meal_stats rid st).2 = m.ate_on := by
          simp [get_meal_stats, hL]
        rw [h2]
        have hm : m ∈ meals_for rid st :=
          (List.perm_insertionSort ateDesc _).subset
            (hL ▸ List.mem_cons_self m rest)
        exact List.mem_map_of_mem _ hm
    · intro m hm
      cases hL : List.insertionSort ateDesc (meals_for rid st) with
      | nil =>
        have hp := List.perm_insertionSort ateDesc (meals_for rid st)
        rw [hL] at hp
        rw [(hp.symm).eq_nil] at hm
        simp at hm
      | cons m0 rest =>
        have h2 : (get_meal_stats rid st).2 = m0.ate_on := by
          simp [get_meal_stats, hL]
        rw [h2]
        have hmem : m ∈ m0 :: rest := by
          rw [← hL]
          exact ((List.perm_insertionSort ateDesc _).symm.subset) hm
        have hsorted := List.sorted_insertionSort ateDesc (meals_for rid st)
        rw [hL] at hsorted
        rcases List.mem_cons.mp hmem with rfl | hmem'
        · exact lexLe_refl _
        · exact (List.sorted_cons.mp hsorted).1 m hmem'
  · decide

/-- Witness for C7 at the example database with two logged meals: the
meal list of recipe 1 is non-empty and the reported last date is one of
its `ate_on` values. -/
theorem get_meal_stats_correct_witness :
    meals_for 1 demo_meals_db ≠ [] ∧
      (get_meal_stats 1 demo_meals_db).2
        ∈ (meals_for 1 demo_meals_db).map MealRow.ate_on :=
  ⟨by decide, (get_meal_stats_correct.1 demo_meals_db 1).2.2.1 (by decide)⟩

/-- C8: the save handler rejects a recipe whose name is empty after
trimming with the `"Naam is verplicht."` warning and leaves the store
completely unchanged. -/
theorem opslaan_rejects_blank_name
    (r_name r_ingredients r_instructions r_tags : List Char)
    (selected_names : List (List Char)) (new_likers_csv : List Char)
    (st : DB) (h : pyStrip r_name = []) :
    opslaan_click r_name r_ingredients r_instructions r_tags selected_names
      new_likers_csv st = (st, SaveResult.naam_verplicht) := by
  simp only [opslaan_click]
  rw [if_neg fun hne => hne h]

/-- Witness for C8: the whitespace-only name `"   "` trims to empty and
the handler returns the untouched store with the warning. -/
theorem opslaan_rejects_blank_name_witness :
    pyStrip ("   ".data) = [] ∧
      opslaan_click ("   ".data) [] [] [] [] [] init_db
        = (init_db, SaveResult.naam_verplicht) :=
  ⟨by decide, opslaan_rejects_blank_name _ _ _ _ _ _ _ (by decide)⟩

/-- Counterexample to C9: `"sqlite_master"` is not on the spec's
allow-list of known tables, yet `export_table` does not reject it — it
interpolates the name verbatim into the SQL text it executes. -/
theorem export_table_counterexample :
    "sqlite_master".data ∉ allowed_export_tables
      ∧ export_table_sql ("sqlite_master".data)
          = "SELECT * FROM sqlite_master".data :=
  ⟨by decide, by decide⟩

/-- C9 (amended): `export_table` performs no allow-list check: every
table name, including each one outside the spec's allow-list, is
interpolated directly into the query text `SELECT * FROM <name>` and is
never rejected. -/
theorem export_table_interpolates (t : List Char)
    (_h : t ∉ allowed_export_tables) :
    export_table_sql t = "SELECT * FROM ".data ++ t := rfl

/-- Witness for the amended C9 at the non-allow-listed name
`"sqlite_master"`. -/
theorem export_table_interpolates_witness :
    "sqlite_master".data ∉ allowed_export_tables
      ∧ export_table_sql ("sqlite_master".data)
          = "SELECT * FROM ".data ++ "sqlite_master".data :=
  ⟨by decide, export_table_interpolates _ (by decide)⟩

/-- C10: `_split_csv` is total at its boundary: it returns the empty
list for the `None` input and for every string made only of commas and
whitespace, so callers may pass an absent `liked_by`/`tags` value. -/
theorem split_csv_total_safe :
    _split_csv none = []
    ∧ ∀ s : List Char, (∀ c ∈ s, c = ',' ∨ isPySpace c = true) →
        _split_csv (some s) = [] := by
  constructor
  · decide
  · intro s hs
    simp only [_split_csv, Option.getD_some]
    apply List.filterMap_eq_nil_iff.mpr
    intro p hp
    have hnc : ',' ∉ p := not_comma_of_mem_splitComma hp
    have hsp : ∀ c ∈ p, isPySpace c = true := by
      intro c hc
      rcases hs c (mem_of_mem_splitComma hp hc) with h | h
      · exact absurd (h ▸ hc) hnc
      · exact h
    simp [keepPiece, pyStrip_eq_nil hsp]

/-- Witness for C10 at a string of only commas and whitespace. -/
theorem split_csv_total_safe_witness :
    ((" ,, , ".data).all fun c => c == ',' || isPySpace c) = true
    ∧ _split_csv (some (" ,, , ".data)) = [] :=
  ⟨by decide, split_csv_total_safe.2 _ (by decide)⟩

end ReceptenApp
